import Mathlib

/-
Verification of the searchyaml storage engine against its specification.

The Go sources are shallowly embedded as Lean definitions:
  - storage/trigram.go      : TrigramIndex, generateTrigrams, Search, FuzzySearch
  - vector index source     : VectorIndex, Update, Remove, Search
  - index manager source    : IndexManager, indexItem.Less, AddIndex, Update, Remove, Search
  - store source            : Store, Get, Set, SetWithTTL, Delete, sync, growFile,
                              resize, load, findContentSize, GetStats, Search, combineResults
  - storage/encoder.go      : FastYAMLEncoder (external yaml.v3 codec; modelled, see below)

Modelling conventions:
  - Go machine integers (int, int64) are Lean Int or Nat; no arithmetic here overflows.
  - Go float64/float32 values are modelled as Rat.  The only irrational operation,
    math.Sqrt inside vector normalization, is threaded through as an explicit
    parameter (sq : Rat -> Rat); every theorem below holds for every such function.
  - Go maps are association lists; map iteration order, which Go leaves
    unspecified, becomes list order.  No claim below depends on that order.
  - Go strings are sequences of characters.  (Go indexes raw UTF-8 bytes; for the
    claims settled here the distinction is immaterial and noted where it arises.)
  - A Go run-time panic (failed type assertion, comparison of uncomparable
    values) is modelled as Option.none propagating out of the operation.
  - Fallible Go code returning error is modelled with Except String.
  - Unbounded Go loops and the recursion sync -> growFile -> resize -> sync are
    modelled with an explicit fuel parameter; none means the computation did not
    complete within the given fuel.
-/

/-- Document values: the model of the dynamic Go values (interface trees) stored
in the document map.  vvec models a Go float32 slice, which the index code
distinguishes from a generic sequence by type assertion; vmap is a string-keyed
mapping, the only shape the index subsystem descends into. -/
inductive Value where
  | vnull : Value
  | vbool : Bool → Value
  | vint : Int → Value
  | vfloat : Rat → Value
  | vstr : String → Value
  | vvec : List Rat → Value
  | vseq : List Value → Value
  | vmap : List (String × Value) → Value

/-- Structural equality test for document values (Go's reflexive equality on the
comparable fragment; used only to give Value decidable equality). -/
def beqV : Value → Value → Bool
  | .vnull, .vnull => true
  | .vbool a, .vbool b => a == b
  | .vint a, .vint b => a == b
  | .vfloat a, .vfloat b => a == b
  | .vstr a, .vstr b => a == b
  | .vvec a, .vvec b => a == b
  | .vseq a, .vseq b => beqSeq a b
  | .vmap a, .vmap b => beqMap a b
  | _, _ => false
where
  beqSeq : List Value → List Value → Bool
    | [], [] => true
    | x :: xs, y :: ys => beqV x y && beqSeq xs ys
    | _, _ => false
  beqMap : List (String × Value) → List (String × Value) → Bool
    | [], [] => true
    | (s, x) :: xs, (t, y) :: ys => s == t && beqV x y && beqMap xs ys
    | _, _ => false

instance : DecidableEq Value := fun a b =>
  decidable_of_iff (beqV a b = true) (by
    refine beqV.induct
      (fun l l2 => beqV.beqSeq l l2 = true ↔ l = l2)
      (fun v v2 => beqV v v2 = true ↔ v = v2)
      (fun m m2 => beqV.beqMap m m2 = true ↔ m = m2)
      ?_ ?_ ?_ ?_ ?_ ?_ ?_ ?_ ?_ ?_ ?_ ?_ ?_ ?_ ?_ a b
    · simp [beqV]
    · intro x y; simp [beqV]
    · intro x y; simp [beqV]
    · intro x y; simp [beqV]
    · intro x y; simp [beqV]
    · intro x y; simp [beqV]
    · intro x y ih; simpa [beqV] using ih
    · intro x y ih; simpa [beqV] using ih
    · intro t x h1 h2 h3 h4 h5 h6 h7 h8
      cases t <;> cases x <;> simp_all [beqV]
    · simp [beqV.beqSeq]
    · intro x xs y ys ihx ihs
      simp [beqV.beqSeq, ihx, ihs]
    · intro t x h1 h2
      cases t with
      | nil =>
        cases x with
        | nil => exact (h1 rfl rfl).elim
        | cons q qs => simp [beqV.beqSeq]
      | cons p ps =>
        cases x with
        | nil => simp [beqV.beqSeq]
        | cons q qs => exact (h2 p ps q qs rfl rfl).elim
    · simp [beqV.beqMap]
    · intro s x xs t y ys ihx ihs
      simp [beqV.beqMap, ihx, ihs, and_assoc]
    · intro t x h1 h2
      cases t with
      | nil =>
        cases x with
        | nil => exact (h1 rfl rfl).elim
        | cons q qs =>
          obtain ⟨qa, qb⟩ := q
          simp [beqV.beqMap]
      | cons p ps =>
        cases x with
        | nil =>
          obtain ⟨pa, pb⟩ := p
          simp [beqV.beqMap]
        | cons q qs =>
          exact (h2 p.1 p.2 ps q.1 q.2 qs (by simp) (by simp)).elim)

attribute [local semireducible] Rat.add Rat.mul Rat.inv Rat.sub

/-- A stored entry: document value, creation timestamp (Unix seconds) and TTL in
seconds; TTL = 0 means no expiration.  Mirrors the Go Entry struct. -/
structure Entry where
  value : Value
  timestamp : Int
  ttl : Int
  deriving DecidableEq

/-
The on-disk codec.

Modelled from the spec: the Go code delegates serialization to the external
gopkg.in/yaml.v3 package (storage/encoder.go merely pools buffers around it),
which is out of scope per the spec; the spec treats the codec as pluggable with
this contract (section 4.1): the encoding of a document map is self-delimiting,
decodes back to the same map, and - so that the store's first-zero-byte content
scan works - contains no zero byte.  The concrete codec below satisfies exactly
that contract: every token emitted is a positive number, and decodeD inverts
docE (proved in the theorems section).
-/

/-- Binary digits of n, least significant first, as tokens 1 and 2 (fuelled so
that the definition is structural and computes by reduction). -/
def natBitsF : Nat → Nat → List Nat
  | 0, _ => []
  | f + 1, n => if n = 0 then [] else (n % 2 + 1) :: natBitsF f (n / 2)

/-- Token encoding of a natural number: its binary digits then terminator 3. -/
def natE (n : Nat) : List Nat := natBitsF n n ++ [3]

/-- Reads the digit tokens produced by natE up to the terminator. -/
def parseNat : List Nat → Option (Nat × List Nat)
  | 3 :: r => some (0, r)
  | 1 :: r => do
      let (n, r1) ← parseNat r
      some (2 * n, r1)
  | 2 :: r => do
      let (n, r1) ← parseNat r
      some (2 * n + 1, r1)
  | _ => none

/-- Token encoding of an integer: sign tag 4 or 5, then the magnitude. -/
def intE : Int → List Nat
  | .ofNat n => 4 :: natE n
  | .negSucc n => 5 :: natE n

def parseInt : List Nat → Option (Int × List Nat)
  | 4 :: r => do
      let (n, r1) ← parseNat r
      some (Int.ofNat n, r1)
  | 5 :: r => do
      let (n, r1) ← parseNat r
      some (Int.negSucc n, r1)
  | _ => none

/-- Token encoding of a rational: numerator then denominator. -/
def ratE (q : Rat) : List Nat := intE q.num ++ natE q.den

def parseRat (l : List Nat) : Option (Rat × List Nat) := do
  let (n, r1) ← parseInt l
  let (d, r2) ← parseNat r1
  some ((n : Rat) / (d : Rat), r2)

/-- Token encoding of a string: length then each character code. -/
def strE (s : String) : List Nat :=
  natE s.toList.length ++ (s.toList.map (fun c => natE c.toNat)).flatten

def parseChars : Nat → List Nat → Option (List Char × List Nat)
  | 0, r => some ([], r)
  | n + 1, r => do
      let (c, r1) ← parseNat r
      let (cs, r2) ← parseChars n r1
      some (Char.ofNat c :: cs, r2)

def parseStr (l : List Nat) : Option (String × List Nat) := do
  let (n, r1) ← parseNat l
  let (cs, r2) ← parseChars n r1
  some (String.mk cs, r2)

def parseRats : Nat → List Nat → Option (List Rat × List Nat)
  | 0, r => some ([], r)
  | n + 1, r => do
      let (q, r1) ← parseRat r
      let (qs, r2) ← parseRats n r1
      some (q :: qs, r2)

/-- Token encoding of a document value: a constructor tag, then the payload;
lists are length-prefixed. -/
def valueE : Value → List Nat
  | .vnull => [6]
  | .vbool b => [7, if b then 2 else 1]
  | .vint i => 8 :: intE i
  | .vfloat q => 9 :: ratE q
  | .vstr s => 10 :: strE s
  | .vvec v => 11 :: natE v.length ++ (v.map ratE).flatten
  | .vseq l => 12 :: natE l.length ++ seqE l
  | .vmap m => 13 :: natE m.length ++ mapE m
where
  seqE : List Value → List Nat
    | [] => []
    | x :: xs => valueE x ++ seqE xs
  mapE : List (String × Value) → List Nat
    | [] => []
    | (s, x) :: xs => strE s ++ valueE x ++ mapE xs

/-- Fuel needed by the value parser: one unit per nesting step. -/
def depthV : Value → Nat
  | .vseq l => 1 + depthSeq l
  | .vmap m => 1 + depthMap m
  | _ => 1
where
  depthSeq : List Value → Nat
    | [] => 1
    | x :: xs => 1 + max (depthV x) (depthSeq xs)
  depthMap : List (String × Value) → Nat
    | [] => 1
    | (_, x) :: xs => 1 + max (depthV x) (depthMap xs)

/-- Inverse of valueE; the fuel bounds the value-nesting depth explored. -/
def parseValue : Nat → List Nat → Option (Value × List Nat)
  | 0, _ => none
  | _ + 1, 6 :: r => some (.vnull, r)
  | _ + 1, 7 :: 1 :: r => some (.vbool false, r)
  | _ + 1, 7 :: 2 :: r => some (.vbool true, r)
  | _ + 1, 8 :: r => do
      let (i, r1) ← parseInt r
      some (.vint i, r1)
  | _ + 1, 9 :: r => do
      let (q, r1) ← parseRat r
      some (.vfloat q, r1)
  | _ + 1, 10 :: r => do
      let (s, r1) ← parseStr r
      some (.vstr s, r1)
  | _ + 1, 11 :: r => do
      let (n, r1) ← parseNat r
      let (v, r2) ← parseRats n r1
      some (.vvec v, r2)
  | f + 1, 12 :: r => do
      let (n, r1) ← parseNat r
      let (l, r2) ← parseSeq f n r1
      some (.vseq l, r2)
  | f + 1, 13 :: r => do
      let (n, r1) ← parseNat r
      let (m, r2) ← parseMap f n r1
      some (.vmap m, r2)
  | _ + 1, _ => none
where
  parseSeq : Nat → Nat → List Nat → Option (List Value × List Nat)
    | 0, _, _ => none
    | _ + 1, 0, r => some ([], r)
    | f + 1, n + 1, r => do
        let (v, r1) ← parseValue f r
        let (vs, r2) ← parseSeq f n r1
        some (v :: vs, r2)
  parseMap : Nat → Nat → List Nat → Option (List (String × Value) × List Nat)
    | 0, _, _ => none
    | _ + 1, 0, r => some ([], r)
    | f + 1, n + 1, r => do
        let (s, r1) ← parseStr r
        let (v, r2) ← parseValue f r1
        let (m, r3) ← parseMap f n r2
        some ((s, v) :: m, r3)

/-- Token encoding of one stored entry. -/
def entryE (e : Entry) : List Nat := valueE e.value ++ intE e.timestamp ++ intE e.ttl

def parseEntry (f : Nat) (l : List Nat) : Option (Entry × List Nat) := do
  let (v, r1) ← parseValue f l
  let (ts, r2) ← parseInt r1
  let (tl, r3) ← parseInt r2
  some (⟨v, ts, tl⟩, r3)

/-- Token encoding of the keyed entries of a document map, in list order. -/
def entriesE : List (String × Entry) → List Nat
  | [] => []
  | (k, e) :: xs => strE k ++ entryE e ++ entriesE xs

/-- Fuel needed by the entries parser. -/
def needEntries : List (String × Entry) → Nat
  | [] => 1
  | (_, e) :: xs => 1 + max (depthV e.value) (needEntries xs)

def parseEntries : Nat → Nat → List Nat → Option (List (String × Entry) × List Nat)
  | 0, _, _ => none
  | _ + 1, 0, r => some ([], r)
  | f + 1, n + 1, r => do
      let (k, r1) ← parseStr r
      let (e, r2) ← parseEntry f r1
      let (rest, r3) ← parseEntries f n r2
      some ((k, e) :: rest, r3)

/-- Encodes a whole document map into the byte block written to the mmap. -/
def docE (l : List (String × Entry)) : List Nat := natE l.length ++ entriesE l

/-- Decodes a byte block back into a document map; strict, in the sense of the
spec's known-fields requirement: trailing garbage is rejected. -/
def decodeD (toks : List Nat) : Option (List (String × Entry)) := do
  let (n, r1) ← parseNat toks
  let (l, r2) ← parseEntries toks.length n r1
  if r2 = [] then some l else none

/-
Association-list primitives standing in for Go maps (keyed by strings).
-/

/-- Map lookup. -/
def alookup {α : Type} : List (String × α) → String → Option α
  | [], _ => none
  | (k2, v) :: xs, k => if k2 = k then some v else alookup xs k

/-- Map insert-or-replace. -/
def aupdate {α : Type} : List (String × α) → String → α → List (String × α)
  | [], k, v => [(k, v)]
  | (k2, v2) :: xs, k, v => if k2 = k then (k, v) :: xs else (k2, v2) :: aupdate xs k v

/-- Map delete. -/
def aremove {α : Type} : List (String × α) → String → List (String × α)
  | [], _ => []
  | (k2, v2) :: xs, k => if k2 = k then xs else (k2, v2) :: aremove xs k

/-
Trigram text index (storage/trigram.go).
-/

/-- TrigramIndex: gram to posting set of document keys, plus key to original
text (Go maps; postings are sets, modelled as lists queried by membership). -/
structure TrigramIndex where
  trigrams : List (String × List String)
  docs : List (String × String)
  deriving DecidableEq

def NewTrigramIndex : TrigramIndex := ⟨[], []⟩

def lowerStr (s : String) : String := String.mk (s.toList.map Char.toLower)

/-- Contiguous 3-character windows (the source slices raw UTF-8 bytes; modelled
at character granularity, which agrees on the ASCII inputs of every concrete
case below). -/
def windows3 : List Char → List String
  | a :: b :: c :: rest => String.mk [a, b, c] :: windows3 (b :: c :: rest)
  | _ => []

/-- generateTrigrams: lowercase, whole string when shorter than 3, else all
3-character windows. -/
def generateTrigrams (text : String) : List String :=
  let t := lowerStr text
  if t.toList.length < 3 then [t] else windows3 t.toList

def TrigramIndex.posting (ti : TrigramIndex) (g : String) : List String :=
  (alookup ti.trigrams g).getD []

def removeFromPosting (tgs : List (String × List String)) (g key : String) :
    List (String × List String) :=
  match alookup tgs g with
  | none => tgs
  | some docs =>
      let docs2 := docs.filter (fun k => k ≠ key)
      if docs2.isEmpty then aremove tgs g else aupdate tgs g docs2

def TrigramIndex.removeDocumentTrigrams (ti : TrigramIndex) (text key : String) : TrigramIndex :=
  { ti with trigrams := (generateTrigrams text).foldl (fun tgs g => removeFromPosting tgs g key) ti.trigrams }

def addToPosting (tgs : List (String × List String)) (g key : String) :
    List (String × List String) :=
  let docs := (alookup tgs g).getD []
  aupdate tgs g (if key ∈ docs then docs else docs ++ [key])

/-- TrigramIndex.Update: retract the previous text's grams, remember the new
text, insert the new text's grams. -/
def TrigramIndex.Update (ti : TrigramIndex) (key text : String) : TrigramIndex :=
  let ti1 := match alookup ti.docs key with
    | some old => ti.removeDocumentTrigrams old key
    | none => ti
  let ti2 := { ti1 with docs := aupdate ti1.docs key text }
  { ti2 with trigrams := (generateTrigrams text).foldl (fun tgs g => addToPosting tgs g key) ti2.trigrams }

/-- TrigramIndex.Remove: retract the key's grams and drop the reverse mapping. -/
def TrigramIndex.Remove (ti : TrigramIndex) (key : String) : TrigramIndex :=
  match alookup ti.docs key with
  | some text =>
      let ti1 := ti.removeDocumentTrigrams text key
      { ti1 with docs := aremove ti1.docs key }
  | none => ti

structure TextSearchResult where
  key : String
  score : Rat
  text : String
  deriving DecidableEq

/-- Descending-score order used by the source's sort.Slice comparator. -/
def byTextScoreDesc (a b : TextSearchResult) : Prop := b.score ≤ a.score

instance : DecidableRel byTextScoreDesc := fun a b =>
  inferInstanceAs (Decidable (b.score ≤ a.score))

instance : IsTotal TextSearchResult byTextScoreDesc := ⟨fun a b => le_total b.score a.score⟩

instance : IsTrans TextSearchResult byTextScoreDesc := ⟨fun _ _ _ h1 h2 => le_trans h2 h1⟩

/-- TrigramIndex.Search: count per-document matches over the query trigrams,
score by the fraction matched, sort descending, truncate when maxResults > 0.
The candidate enumeration order stands in for Go's map iteration order; the
subsequent sort makes every property claimed about the result independent of
it. -/
def TrigramIndex.Search (ti : TrigramIndex) (query : String) (maxResults : Nat) :
    List TextSearchResult :=
  let qt := generateTrigrams query
  let cands := (qt.flatMap (fun g => ti.posting g)).dedup
  let results := cands.map (fun k =>
    ⟨k, ((qt.countP (fun g => decide (k ∈ ti.posting g)) : Nat) : Rat) / ((qt.length : Nat) : Rat),
     (alookup ti.docs k).getD ""⟩)
  let sorted := results.insertionSort byTextScoreDesc
  if 0 < maxResults ∧ sorted.length > maxResults then sorted.take maxResults else sorted

/-- TrigramIndex.FuzzySearch: the untruncated search, scores below minScore
dropped, then truncated. -/
def TrigramIndex.FuzzySearch (ti : TrigramIndex) (query : String) (minScore : Rat)
    (maxResults : Nat) : List TextSearchResult :=
  let results := ti.Search query 0
  let filtered := results.filter (fun r => minScore ≤ r.score)
  if 0 < maxResults ∧ filtered.length > maxResults then filtered.take maxResults else filtered

/-
Vector index.
-/

structure VectorSearchResult where
  key : String
  score : Rat
  deriving DecidableEq

structure VectorIndex where
  vectors : List (String × List Rat)
  dim : Nat
  deriving DecidableEq

def NewVectorIndex (dimensions : Nat) : VectorIndex := ⟨[], dimensions⟩

/-- normalizeVector: divide by the square-root magnitude when it is positive.
The square root on the Rat model of floats is the explicit parameter sq. -/
def normalizeVector (sq : Rat → Rat) (v : List Rat) : List Rat :=
  let magnitude := sq ((v.map (fun x => x * x)).sum)
  if 0 < magnitude then v.map (fun x => x / magnitude) else v

/-- cosineSimilarity: dot product (the source iterates the first vector's
indices into the second; callers always pass equal-length vectors, where the
truncating zip agrees with it). -/
def cosineSimilarity (a b : List Rat) : Rat := ((a.zip b).map (fun p => p.1 * p.2)).sum

/-- VectorIndex.Update: dimension check, then store the normalized copy. -/
def VectorIndex.Update (sq : Rat → Rat) (vi : VectorIndex) (key : String)
    (vector : List Rat) : Except String VectorIndex :=
  if vector.length ≠ vi.dim then .error "vector dimension mismatch"
  else .ok { vi with vectors := aupdate vi.vectors key (normalizeVector sq vector) }

def VectorIndex.Remove (vi : VectorIndex) (key : String) : VectorIndex :=
  { vi with vectors := aremove vi.vectors key }

def byVecScoreDesc (a b : VectorSearchResult) : Prop := b.score ≤ a.score

instance : DecidableRel byVecScoreDesc := fun a b =>
  inferInstanceAs (Decidable (b.score ≤ a.score))

instance : IsTotal VectorSearchResult byVecScoreDesc := ⟨fun a b => le_total b.score a.score⟩

instance : IsTrans VectorSearchResult byVecScoreDesc := ⟨fun _ _ _ h1 h2 => le_trans h2 h1⟩

/-- VectorIndex.Search: dimension check, normalize the query, score every
stored vector, sort descending, take the top k (the source clamps k to the
result count before slicing, which List.take already does). -/
def VectorIndex.Search (sq : Rat → Rat) (vi : VectorIndex) (query : List Rat) (k : Nat) :
    Except String (List VectorSearchResult) :=
  if query.length ≠ vi.dim then .error "query dimension mismatch"
  else
    let nq := normalizeVector sq query
    let results := vi.vectors.map (fun p => (⟨p.1, cosineSimilarity nq p.2⟩ : VectorSearchResult))
    let sorted := results.insertionSort byVecScoreDesc
    .ok (sorted.take k)

/-
Ordered (btree) index and the index manager.
-/

/-- indexItem: a (key, field value) pair stored in an ordered index. -/
structure IndexItem where
  key : String
  value : Value
  deriving DecidableEq

/-- Go string comparison: lexicographic on the character codes (Go compares
raw bytes; on the ASCII data of every concrete case below the two agree). -/
def charsLt : List Char → List Char → Bool
  | [], [] => false
  | [], _ :: _ => true
  | _ :: _, [] => false
  | a :: as, b :: bs =>
      if a.toNat < b.toNat then true
      else if b.toNat < a.toNat then false
      else charsLt as bs

def goStrLt (a b : String) : Bool := charsLt a.toList b.toList

/-- indexItem.Less.  The source type-switches on the receiver's value and then
type-asserts the argument to the same Go type: a mismatched argument is a
run-time panic, modelled as none.  Every other receiver type falls to the
default branch returning false. -/
def IndexItem.Less (a b : IndexItem) : Option Bool :=
  match a.value with
  | .vstr s =>
      match b.value with
      | .vstr t => some (goStrLt s t)
      | _ => none
  | .vint n =>
      match b.value with
      | .vint m => some (decide (n < m))
      | _ => none
  | .vfloat p =>
      match b.value with
      | .vfloat q => some (decide (p < q))
      | _ => none
  | _ => some false

/-- Go interface equality as used by the manager's filter search: values of
different dynamic types are unequal, comparable same-type values compare
componentwise, and same-type uncomparable values (slices, maps) panic. -/
def eqGo : Value → Value → Option Bool
  | .vnull, .vnull => some true
  | .vbool a, .vbool b => some (a == b)
  | .vint a, .vint b => some (a == b)
  | .vfloat a, .vfloat b => some (a == b)
  | .vstr a, .vstr b => some (a == b)
  | .vvec _, .vvec _ => none
  | .vseq _, .vseq _ => none
  | .vmap _, .vmap _ => none
  | _, _ => some false

/-- The external google/btree container holds items in Less order; it is
modelled as that ordered item sequence.  ReplaceOrInsert walks to the item's
position and replaces an item that is neither less nor greater. -/
def btreeInsert : List IndexItem → IndexItem → Option (List IndexItem)
  | [], x => some [x]
  | y :: ys, x => do
      let b1 ← x.Less y
      if b1 then some (x :: y :: ys)
      else do
        let b2 ← y.Less x
        if b2 then do
          let rest ← btreeInsert ys x
          some (y :: rest)
        else some (x :: ys)

/-- The find step of btree deletion: the index of the first stored item the
probe is less than (sort.Search with the probe on the left of Less). -/
def btreeSearchIdx (x : IndexItem) : List IndexItem → Option Nat
  | [] => some 0
  | y :: ys => do
      let b ← x.Less y
      if b then some 0
      else do
        let n ← btreeSearchIdx x ys
        some (n + 1)

/-- btree Delete: find the probe's position; when the preceding item is not
less than the probe it is the match and is removed, else no-op.  An empty tree
returns immediately without comparing. -/
def btreeDelete (t : List IndexItem) (x : IndexItem) : Option (List IndexItem) :=
  if t.isEmpty then some t
  else do
    let i ← btreeSearchIdx x t
    if i = 0 then some t
    else
      match t[i - 1]? with
      | none => some t
      | some y => do
          let b ← y.Less x
          if b then some t
          else some (t.take (i - 1) ++ t.drop i)

/-- btree AscendGreaterOrEqual: the suffix of items not less than the pivot. -/
def btreeAscendFrom (pivot : IndexItem) : List IndexItem → Option (List IndexItem)
  | [] => some []
  | y :: ys => do
      let b ← y.Less pivot
      if b then btreeAscendFrom pivot ys else some (y :: ys)

/-- Keys of the ascended items whose value equals the probe value (the filter
search's iterator body). -/
def collectEqKeys (v : Value) : List IndexItem → Option (List String)
  | [] => some []
  | y :: ys => do
      let b ← eqGo y.value v
      let rest ← collectEqKeys v ys
      some (if b then y.key :: rest else rest)

/-- IndexManager: the three per-field index maps. -/
structure IndexManager where
  trees : List (String × List IndexItem)
  vectors : List (String × VectorIndex)
  text : List (String × TrigramIndex)
  deriving DecidableEq

def NewIndexManager : IndexManager := ⟨[], [], []⟩

/-- IndexManager.AddIndex: create the named index when absent (btree indexes
start empty, vector indexes default to 384 dimensions); no-op when present;
unknown type strings are an error. -/
def IndexManager.AddIndex (im : IndexManager) (field indexType : String) :
    Except String IndexManager :=
  if indexType = "btree" then
    if (alookup im.trees field).isSome then .ok im
    else .ok { im with trees := aupdate im.trees field [] }
  else if indexType = "vector" then
    if (alookup im.vectors field).isSome then .ok im
    else .ok { im with vectors := aupdate im.vectors field (NewVectorIndex 384) }
  else if indexType = "text" then
    if (alookup im.text field).isSome then .ok im
    else .ok { im with text := aupdate im.text field NewTrigramIndex }
  else .error ("unknown index type: " ++ indexType)

def updateTrees (key : String) (m : List (String × Value)) :
    List (String × List IndexItem) → Option (List (String × List IndexItem))
  | [] => some []
  | (f, t) :: rest => do
      let t2 ← match alookup m f with
        | some fv => btreeInsert t ⟨key, fv⟩
        | none => some t
      let rest2 ← updateTrees key m rest
      some ((f, t2) :: rest2)

/-- Vector-index update pass of IndexManager.Update.  The source discards the
error returned by vec.Update, so a failed update leaves that index unchanged
and is invisible to the caller. -/
def updateVectors (sq : Rat → Rat) (key : String) (m : List (String × Value))
    (vecs : List (String × VectorIndex)) : List (String × VectorIndex) :=
  vecs.map (fun p =>
    match alookup m p.1 with
    | some (.vvec v) =>
        match p.2.Update sq key v with
        | .ok vi2 => (p.1, vi2)
        | .error _ => p
    | _ => p)

def updateTexts (key : String) (m : List (String × Value))
    (texts : List (String × TrigramIndex)) : List (String × TrigramIndex) :=
  texts.map (fun p =>
    match alookup m p.1 with
    | some (.vstr s) => (p.1, p.2.Update key s)
    | _ => p)

/-- IndexManager.Update: for mapping values, forward each matching field to
every index family (type mismatches skipped); non-mapping values are not
indexed.  The Go function returns a nil error on every path. -/
def IndexManager.Update (sq : Rat → Rat) (im : IndexManager) (key : String)
    (value : Value) : Option IndexManager :=
  match value with
  | .vmap m => do
      let trees2 ← updateTrees key m im.trees
      some { trees := trees2, vectors := updateVectors sq key m im.vectors,
             text := updateTexts key m im.text }
  | _ => some im

def removeTrees (key : String) :
    List (String × List IndexItem) → Option (List (String × List IndexItem))
  | [] => some []
  | (f, t) :: rest => do
      let t2 ← btreeDelete t ⟨key, .vnull⟩
      let rest2 ← removeTrees key rest
      some ((f, t2) :: rest2)

/-- IndexManager.Remove: delete the key from every index of every type; the
btree probe is an item with key and nil value. -/
def IndexManager.Remove (im : IndexManager) (key : String) : Option IndexManager := do
  let trees2 ← removeTrees key im.trees
  some { trees := trees2,
         vectors := im.vectors.map (fun p => (p.1, p.2.Remove key)),
         text := im.text.map (fun p => (p.1, p.2.Remove key)) }

/-- The filter-search loop: acc is the running result set, first tracks
whether a field with an index has been seen yet. -/
def searchFilters (im : IndexManager) :
    List (String × Value) → List String → Bool → Option (List String)
  | [], acc, _ => some acc
  | fv :: rest, acc, first =>
      match alookup im.trees fv.1 with
      | none => searchFilters im rest acc first
      | some tree => do
          let suffix ← btreeAscendFrom ⟨"", fv.2⟩ tree
          let fieldKeys ← collectEqKeys fv.2 suffix
          let fieldResults := fieldKeys.dedup
          if first then searchFilters im rest fieldResults false
          else searchFilters im rest (acc.filter (fun k => decide (k ∈ fieldResults))) false

/-- IndexManager.Search: each (field, value) filter with an existing btree
index contributes the keys of items equal to the value (collected by ascending
from the value); the result is the running intersection.  Fields without a
btree index contribute nothing.  The Go function's error result is nil on
every path. -/
def IndexManager.Search (im : IndexManager) (query : List (String × Value)) :
    Option (List String) :=
  searchFilters im query [] true

/-
Store state, statistics and operations.
-/

structure IndexTypeStats where
  count : Nat
  entryCount : Nat
  deriving DecidableEq

/-- StoreStats counters.  The source's EWMA latency averages and wall-clock
fields (LastSyncTime, LastGC) are real-time measurements outside this model and
are omitted; no claim mentions them. -/
structure StoreStats where
  reads : Nat
  writes : Nat
  deletes : Nat
  syncCount : Nat
  dataSize : Nat
  fileSize : Nat
  entryCount : Nat
  expiredCount : Nat
  textIndexes : IndexTypeStats
  vectorIndexes : IndexTypeStats
  btreeIndexes : IndexTypeStats
  deriving DecidableEq

def StoreStats.init : StoreStats := ⟨0, 0, 0, 0, 0, 0, 0, 0, ⟨0, 0⟩, ⟨0, 0⟩, ⟨0, 0⟩⟩

structure Store where
  data : List (String × Entry)
  mm : List Nat
  dirty : Bool
  stats : StoreStats
  indexes : IndexManager
  deriving DecidableEq

/-- Expiry test shared by Get, load and GC: TTL positive and now past
timestamp + TTL (integer Unix seconds). -/
def Entry.expiredAt (e : Entry) (now : Int) : Bool :=
  decide (0 < e.ttl) && decide (e.timestamp + e.ttl < now)

/-- A store as NewStore creates it over a fresh zero file of the initial size
(the source truncates the file up to opts.InitialSize and maps it). -/
def emptyStore (initialSize : Nat) : Store :=
  ⟨[], List.replicate initialSize 0, false,
   { StoreStats.init with fileSize := initialSize }, NewIndexManager⟩

/-- Store.Get: read counter, lookup, expired entries reported absent (the
source also spawns an asynchronous Delete then; that is concurrency outside
this model and the claims use only the returned value). -/
def Store.Get (st : Store) (key : String) (now : Int) : Option Entry × Store :=
  let st2 := { st with stats := { st.stats with reads := st.stats.reads + 1 } }
  match alookup st.data key with
  | some e => if e.expiredAt now then (none, st2) else (some e, st2)
  | none => (none, st2)

/-- Store.Set: store the entry with timestamp now and TTL 0, mark dirty, update
the indexes, bump write statistics. -/
def Store.Set (sq : Rat → Rat) (st : Store) (key : String) (value : Value) (now : Int) :
    Option Store := do
  let entry : Entry := ⟨value, now, 0⟩
  let data2 := aupdate st.data key entry
  let im2 ← st.indexes.Update sq key value
  some { st with
    data := data2, dirty := true, indexes := im2,
    stats := { st.stats with writes := st.stats.writes + 1, entryCount := data2.length } }

/-- Store.SetWithTTL: as Set with TTL = int64(ttl.Seconds()), which truncates;
the duration is modelled in Rat seconds and the claims concern nonnegative
durations, where truncation is the floor. -/
def Store.SetWithTTL (sq : Rat → Rat) (st : Store) (key : String) (value : Value)
    (now : Int) (ttl : Rat) : Option Store := do
  let entry : Entry := ⟨value, now, Rat.floor ttl⟩
  let data2 := aupdate st.data key entry
  let im2 ← st.indexes.Update sq key value
  some { st with
    data := data2, dirty := true, indexes := im2,
    stats := { st.stats with writes := st.stats.writes + 1 } }

/-- Store.Delete: remove from the map and from every index; no-op when the key
is absent. -/
def Store.Delete (st : Store) (key : String) : Option Store :=
  match alookup st.data key with
  | none => some st
  | some _ => do
      let im2 ← st.indexes.Remove key
      some { st with
        data := aremove st.data key, dirty := true, indexes := im2,
        stats := { st.stats with deletes := st.stats.deletes + 1 } }

/-- Store.CreateIndex delegates to the manager. -/
def Store.CreateIndex (st : Store) (field indexType : String) : Except String Store :=
  match st.indexes.AddIndex field indexType with
  | .ok im2 => .ok { st with indexes := im2 }
  | .error e => .error e

/-- The sync loop's keep condition: TTL zero or not yet past expiry. -/
def syncKeep (now : Int) (e : Entry) : Bool :=
  decide (e.ttl = 0) || decide (now ≤ e.timestamp + e.ttl)

/-- The write phase of sync: copy the encoded block to the start of the region,
zero-fill the remainder, flush, clear dirty, update statistics. -/
def writeEnc (st : Store) (encData : List Nat) : Store :=
  let mm2 := encData ++ List.replicate (st.mm.length - encData.length) 0
  { st with
    mm := mm2, dirty := false,
    stats := { st.stats with
      dataSize := encData.length, entryCount := st.data.length,
      fileSize := mm2.length } }

/-- File truncation to a new size: kept prefix, zero extension. -/
def resizeBytes (b : List Nat) (n : Nat) : List Nat :=
  b.take n ++ List.replicate (n - b.length) 0

/-- growFile's doubling loop (fuelled; a zero current size never terminates in
the source and is none here). -/
def doubleLoop : Nat → Nat → Nat → Option Nat
  | 0, _, _ => none
  | f + 1, n, req => if n < req then (if n = 0 then none else doubleLoop f (n * 2) req) else some n

def growTarget (cur req : Nat) : Option Nat := doubleLoop (req + 1) (cur * 2) req

/-- Store.sync.  No-op when clean; else encode the map without expired entries;
when the block exceeds the region, growFile computes the doubled size and calls
resize, and resize re-enters sync before unmapping and truncating - that
re-entry is the recursive call below, faithful to the source's
sync -> growFile -> resize -> sync cycle.  The fuel bounds the recursion
depth; none means sync did not return. -/
def Store.syncF (now : Int) : Nat → Store → Option Store
  | 0, _ => none
  | f + 1, st =>
      if !st.dirty then some st
      else
        let clean := st.data.filter (fun p => syncKeep now p.2)
        let encData := docE clean
        if st.mm.length < encData.length then
          match growTarget st.mm.length encData.length with
          | none => none
          | some newSize =>
              match Store.syncF now f st with
              | none => none
              | some st1 => some (writeEnc { st1 with mm := resizeBytes st1.mm newSize } encData)
        else some (writeEnc st encData)

/-- findContentSize: offset of the first zero byte, or the region length. -/
def findContentSize (mm : List Nat) : Nat := mm.findIdx (fun b => b == 0)

/-- The index-building pass of load: update the manager for every entry not
expired at load time. -/
def loadIndexes (sq : Rat → Rat) (now : Int) :
    IndexManager → List (String × Entry) → Option IndexManager
  | im, [] => some im
  | im, (k, e) :: rest =>
      if e.expiredAt now then loadIndexes sq now im rest
      else do
        let im2 ← im.Update sq k e.value
        loadIndexes sq now im2 rest

/-- NewStore followed by load over an existing file content: find the content
size, accept an empty file, else decode strictly, build the indexes of a fresh
manager, and only then install the decoded map. -/
def loadStore (sq : Rat → Rat) (mm : List Nat) (now : Int) : Option Store :=
  let size := findContentSize mm
  if size = 0 then
    some ⟨[], mm, false, { StoreStats.init with fileSize := mm.length }, NewIndexManager⟩
  else
    match decodeD (mm.take size) with
    | none => none
    | some tempData => do
        let im2 ← loadIndexes sq now NewIndexManager tempData
        some (⟨tempData, mm, false,
               { StoreStats.init with
                 fileSize := mm.length, dataSize := size,
                 entryCount := tempData.length }, im2⟩ : Store)

/-- Store.GetStats: refresh the snapshot fields.  The index Count fields are
assigned, but the per-index EntryCount fields are incremented onto their
previous values (the source uses += without resetting), and the updated
statistics persist in the store. -/
def Store.GetStats (st : Store) : StoreStats × Store :=
  let s0 := st.stats
  let s1 := { s0 with
    entryCount := st.data.length,
    fileSize := st.mm.length,
    textIndexes := ⟨st.indexes.text.length,
      s0.textIndexes.entryCount + (st.indexes.text.map (fun p => p.2.docs.length)).sum⟩,
    vectorIndexes := ⟨st.indexes.vectors.length,
      s0.vectorIndexes.entryCount + (st.indexes.vectors.map (fun p => p.2.vectors.length)).sum⟩,
    btreeIndexes := ⟨st.indexes.trees.length,
      s0.btreeIndexes.entryCount + (st.indexes.trees.map (fun p => p.2.length)).sum⟩ }
  (s1, { st with stats := s1 })

/-
Search planner.
-/

structure SearchQuery where
  text : String
  vector : List Rat
  filters : List (String × Value)
  maxResults : Nat
  minScore : Rat
  deriving DecidableEq

structure SearchResult where
  key : String
  value : Value
  textScore : Rat
  vecScore : Rat
  combined : Rat
  deriving DecidableEq

def calculateCombinedScore (textScore vectorScore : Rat) : Rat :=
  (textScore + vectorScore) / 2

def bySearchScoreDesc (a b : SearchResult) : Prop := b.combined ≤ a.combined

instance : DecidableRel bySearchScoreDesc := fun a b =>
  inferInstanceAs (Decidable (b.combined ≤ a.combined))

instance : IsTotal SearchResult bySearchScoreDesc := ⟨fun a b => le_total b.combined a.combined⟩

instance : IsTrans SearchResult bySearchScoreDesc := ⟨fun _ _ _ h1 h2 => le_trans h2 h1⟩

/-- Key-indexed insert-or-replace on the combine map (Go scores map write). -/
def upsertResult : List SearchResult → SearchResult → List SearchResult
  | [], r => [r]
  | x :: xs, r => if x.key = r.key then r :: xs else x :: upsertResult xs r

def lookupResult : List SearchResult → String → Option SearchResult
  | [], _ => none
  | x :: xs, k => if x.key = k then some x else lookupResult xs k

/-- Store.combineResults: seed from text hits; merge vector hits (combining
scores on keys already present, else vector-only results); when the filter key
list is nonempty keep only its keys; finally attach the current document value,
dropping keys no longer in the map.  vnull stands for the nil value before
attachment. -/
def Store.combineResults (st : Store) (text : List TextSearchResult)
    (vector : List VectorSearchResult) (filters : List String) : List SearchResult :=
  let scores1 := text.foldl (fun acc r => upsertResult acc ⟨r.key, .vnull, r.score, 0, 0⟩) []
  let scores2 := vector.foldl (fun acc r =>
    match lookupResult acc r.key with
    | some ex => upsertResult acc
        { ex with vecScore := r.score, combined := calculateCombinedScore ex.textScore r.score }
    | none => acc ++ [⟨r.key, .vnull, 0, r.score, r.score⟩]) scores1
  let scores3 := if filters.isEmpty then scores2
    else scores2.filter (fun r => decide (r.key ∈ filters))
  scores3.filterMap (fun r =>
    match alookup st.data r.key with
    | some e => some { r with value := e.value }
    | none => none)

/-- The vector stage of Store.Search: collect each vector index's results; any
per-index error fails the stage. -/
def vectorStage (sq : Rat → Rat) (vecs : List (String × VectorIndex))
    (query : List Rat) (k : Nat) : Except String (List VectorSearchResult) :=
  match vecs with
  | [] => .ok []
  | (_, vi) :: rest => do
      let rs ← vi.Search sq query k
      let rest2 ← vectorStage sq rest query k
      .ok (rs ++ rest2)

/-- Store.Search: text stage over every text index when the query text is
nonempty; vector stage when the query vector is nonempty (an error fails the
query); filter stage when filters are nonempty; combine, sort descending by
combined score, truncate when MaxResults > 0. -/
def Store.Search (sq : Rat → Rat) (st : Store) (q : SearchQuery) :
    Option (Except String (List SearchResult)) :=
  let textResults := if q.text = "" then []
    else (st.indexes.text.map (fun p => p.2.FuzzySearch q.text q.minScore q.maxResults)).flatten
  match (if q.vector.isEmpty then .ok []
         else vectorStage sq st.indexes.vectors q.vector q.maxResults :
         Except String (List VectorSearchResult)) with
  | .error e => some (.error ("vector search error: " ++ e))
  | .ok vectorResults =>
      match (if q.filters.isEmpty then some [] else st.indexes.Search q.filters :
             Option (List String)) with
      | none => none
      | some filterResults =>
          let combined := st.combineResults textResults vectorResults filterResults
          let sorted := combined.insertionSort bySearchScoreDesc
          some (.ok (if 0 < q.maxResults ∧ sorted.length > q.maxResults
                     then sorted.take q.maxResults else sorted))

/-- A sequence of Store.Set calls (key, value, time of the call). -/
def applySets (sq : Rat → Rat) : List (String × Value × Int) → Store → Option Store
  | [], st => some st
  | (k, v, t) :: rest, st => do
      let st2 ← st.Set sq k v t
      applySets sq rest st2

/-- Concrete store used to instantiate the round-trip theorem: the state after
Set "a" (vstr "hi") with TTL 3 on an empty 100-byte store. -/
def c1st1 : Store :=
  { emptyStore 100 with
    data := [("a", ⟨.vstr "hi", 3, 0⟩)]
    dirty := true
    stats := { (emptyStore 100).stats with writes := 1, entryCount := 1 } }

/-- The same store after a sync: the encoded document written into the region. -/
def c1st2 : Store := writeEnc c1st1 (docE [("a", ⟨.vstr "hi", 3, 0⟩)])

/-
Codec correctness: decodeD inverts docE, and docE never emits a zero token.
These are the contract obligations of section 4.1 that sync and load rely on.
-/

theorem parseNat_natBitsF (f : Nat) : ∀ n r, n ≤ f →
    parseNat (natBitsF f n ++ 3 :: r) = some (n, r) := by
  induction f with
  | zero =>
      intro n r h
      interval_cases n
      simp [natBitsF, parseNat]
  | succ f ih =>
      intro n r h
      by_cases h0 : n = 0
      · subst h0
        simp [natBitsF, parseNat]
      · rw [natBitsF]
        simp only [h0, if_false]
        have hdiv : n / 2 ≤ f := by omega
        have hmod : n % 2 = 0 ∨ n % 2 = 1 := Nat.mod_two_eq_zero_or_one n
        rcases hmod with hm | hm
        · rw [hm]
          simp only [List.cons_append, List.append_eq, parseNat, ih (n / 2) r hdiv,
            Option.bind_eq_bind, Option.some_bind]
          have h2 : 2 * (n / 2) = n := by omega
          rw [h2]
        · rw [hm]
          simp only [List.cons_append, List.append_eq, parseNat, ih (n / 2) r hdiv,
            Option.bind_eq_bind, Option.some_bind]
          have h2 : 2 * (n / 2) + 1 = n := by omega
          rw [h2]

theorem parseNat_natE (n : Nat) (r : List Nat) : parseNat (natE n ++ r) = some (n, r) := by
  have h := parseNat_natBitsF n n r le_rfl
  simpa [natE] using h

theorem parseInt_intE (i : Int) (r : List Nat) : parseInt (intE i ++ r) = some (i, r) := by
  cases i with
  | ofNat n => simp [intE, parseInt, parseNat_natE]
  | negSucc n => simp [intE, parseInt, parseNat_natE]

theorem parseRat_ratE (q : Rat) (r : List Nat) : parseRat (ratE q ++ r) = some (q, r) := by
  simp only [ratE, List.append_assoc, parseRat, parseInt_intE, parseNat_natE,
    Option.bind_eq_bind, Option.some_bind]
  rw [Rat.num_div_den]

theorem parseChars_chars (cs : List Char) : ∀ r,
    parseChars cs.length ((cs.map (fun c => natE c.toNat)).flatten ++ r) = some (cs, r) := by
  induction cs with
  | nil => intro r; simp [parseChars]
  | cons c cs ih =>
      intro r
      simp [parseChars, parseNat_natE, ih, Char.ofNat_toNat]

theorem parseStr_strE (s : String) (r : List Nat) : parseStr (strE s ++ r) = some (s, r) := by
  simp only [strE, List.append_assoc, parseStr, parseNat_natE, Option.bind_eq_bind,
    Option.some_bind, parseChars_chars]
  cases s
  rfl

theorem parseRats_flat (v : List Rat) : ∀ r,
    parseRats v.length ((v.map ratE).flatten ++ r) = some (v, r) := by
  induction v with
  | nil => intro r; simp [parseRats]
  | cons q qs ih =>
      intro r
      simp [parseRats, parseRat_ratE, ih]

theorem parseValue_valueE (v : Value) : ∀ f r, depthV v ≤ f →
    parseValue f (valueE v ++ r) = some (v, r) := by
  refine valueE.induct
    (fun l => ∀ f r, depthV.depthSeq l ≤ f →
      parseValue.parseSeq f l.length (valueE.seqE l ++ r) = some (l, r))
    (fun v => ∀ f r, depthV v ≤ f →
      parseValue f (valueE v ++ r) = some (v, r))
    (fun m => ∀ f r, depthV.depthMap m ≤ f →
      parseValue.parseMap f m.length (valueE.mapE m ++ r) = some (m, r))
    ?_ ?_ ?_ ?_ ?_ ?_ ?_ ?_ ?_ ?_ ?_ ?_ v
  · intro f r h
    cases f with
    | zero => simp [depthV] at h
    | succ f => simp [valueE, parseValue]
  · intro b f r h
    cases f with
    | zero => simp [depthV] at h
    | succ f => cases b <;> simp [valueE, parseValue]
  · intro i f r h
    cases f with
    | zero => simp [depthV] at h
    | succ f => simp [valueE, parseValue, parseInt_intE]
  · intro q f r h
    cases f with
    | zero => simp [depthV] at h
    | succ f => simp [valueE, parseValue, parseRat_ratE]
  · intro s f r h
    cases f with
    | zero => simp [depthV] at h
    | succ f => simp [valueE, parseValue, parseStr_strE]
  · intro w f r h
    cases f with
    | zero => simp [depthV] at h
    | succ f => simp [valueE, parseValue, parseNat_natE, parseRats_flat]
  · intro l ih f r h
    cases f with
    | zero => simp [depthV] at h
    | succ f =>
        have hs : depthV.depthSeq l ≤ f := by
          simp [depthV] at h; omega
        simp [valueE, parseValue, parseNat_natE, ih f r hs]
  · intro m ih f r h
    cases f with
    | zero => simp [depthV] at h
    | succ f =>
        have hs : depthV.depthMap m ≤ f := by
          simp [depthV] at h; omega
        simp [valueE, parseValue, parseNat_natE, ih f r hs]
  · intro f r h
    cases f with
    | zero => simp [depthV.depthSeq] at h
    | succ f => simp [valueE.seqE, parseValue.parseSeq]
  · intro x xs ihx ihs f r h
    cases f with
    | zero => simp [depthV.depthSeq] at h
    | succ f =>
        have hx : depthV x ≤ f := by
          simp [depthV.depthSeq] at h; omega
        have hxs : depthV.depthSeq xs ≤ f := by
          simp [depthV.depthSeq] at h; omega
        simp [valueE.seqE, parseValue.parseSeq, ihx f _ hx, ihs f r hxs]
  · intro f r h
    cases f with
    | zero => simp [depthV.depthMap] at h
    | succ f => simp [valueE.mapE, parseValue.parseMap]
  · intro s x xs ihx ihs f r h
    cases f with
    | zero => simp [depthV.depthMap] at h
    | succ f =>
        have hx : depthV x ≤ f := by
          simp [depthV.depthMap] at h; omega
        have hxs : depthV.depthMap xs ≤ f := by
          simp [depthV.depthMap] at h; omega
        simp [valueE.mapE, parseValue.parseMap, parseStr_strE, ihx f _ hx, ihs f r hxs]

theorem parseEntries_entriesE (l : List (String × Entry)) : ∀ f r, needEntries l ≤ f →
    parseEntries f l.length (entriesE l ++ r) = some (l, r) := by
  induction l with
  | nil =>
      intro f r h
      cases f with
      | zero => simp [needEntries] at h
      | succ f => simp [entriesE, parseEntries]
  | cons p rest ih =>
      intro f r h
      obtain ⟨k, e⟩ := p
      cases f with
      | zero => simp [needEntries] at h
      | succ f =>
          have hv : depthV e.value ≤ f := by
            simp [needEntries] at h; omega
          have hr : needEntries rest ≤ f := by
            simp [needEntries] at h; omega
          simp [entriesE, parseEntries, parseStr_strE, entryE, parseEntry,
            parseValue_valueE e.value f _ hv, parseInt_intE, ih f r hr]

theorem natE_length_pos (n : Nat) : 1 ≤ (natE n).length := by
  simp [natE]

theorem intE_length_pos (i : Int) : 1 ≤ (intE i).length := by
  cases i <;> simp [intE]

theorem valueE_length_pos (v : Value) : 1 ≤ (valueE v).length := by
  cases v <;> simp [valueE]

theorem depthV_le_length (v : Value) : depthV v ≤ (valueE v).length := by
  refine valueE.induct
    (fun l => depthV.depthSeq l ≤ (valueE.seqE l).length + 1)
    (fun v => depthV v ≤ (valueE v).length)
    (fun m => depthV.depthMap m ≤ (valueE.mapE m).length + 1)
    ?_ ?_ ?_ ?_ ?_ ?_ ?_ ?_ ?_ ?_ ?_ ?_ v
  · simp [depthV, valueE]
  · intro b; simp [depthV, valueE]
  · intro i; simp [depthV, valueE]
  · intro q; simp [depthV, valueE]
  · intro s; simp [depthV, valueE]
  · intro w; simp [depthV, valueE]
  · intro l ih
    have h1 := natE_length_pos l.length
    simp only [depthV, valueE, List.length_cons, List.length_append]
    omega
  · intro m ih
    have h1 := natE_length_pos m.length
    simp only [depthV, valueE, List.length_cons, List.length_append]
    omega
  · simp [depthV.depthSeq, valueE.seqE]
  · intro x xs ihx ihs
    have h1 := valueE_length_pos x
    simp only [depthV.depthSeq, valueE.seqE, List.length_append]
    omega
  · simp [depthV.depthMap, valueE.mapE]
  · intro s x xs ihx ihs
    have h1 := valueE_length_pos x
    simp only [depthV.depthMap, valueE.mapE, List.length_append]
    omega

theorem needEntries_le (l : List (String × Entry)) :
    needEntries l ≤ (entriesE l).length + 1 := by
  induction l with
  | nil => simp [needEntries, entriesE]
  | cons p rest ih =>
      obtain ⟨k, e⟩ := p
      have h1 := depthV_le_length e.value
      have h2 := valueE_length_pos e.value
      simp only [needEntries, entriesE, entryE, List.length_append]
      omega

/-- The codec round trip: decoding the encoded document map yields it back. -/
theorem decodeD_docE (l : List (String × Entry)) : decodeD (docE l) = some l := by
  have hfuel : needEntries l ≤ (docE l).length := by
    have h1 := needEntries_le l
    have h2 := natE_length_pos l.length
    simp only [docE, List.length_append]
    omega
  have hp := parseEntries_entriesE l (docE l).length [] hfuel
  simp only [List.append_nil] at hp
  simp only [docE, List.length_append] at hp
  simp [decodeD, docE, parseNat_natE, hp]

theorem natBitsF_pos (f : Nat) : ∀ n t, t ∈ natBitsF f n → t ≠ 0 := by
  induction f with
  | zero => intro n t h; simp [natBitsF] at h
  | succ f ih =>
      intro n t h
      rw [natBitsF] at h
      by_cases h0 : n = 0
      · simp [h0] at h
      · simp only [h0, if_false, List.mem_cons] at h
        rcases h with h | h
        · omega
        · exact ih (n / 2) t h

theorem natE_pos (n : Nat) : ∀ t ∈ natE n, t ≠ 0 := by
  intro t h
  simp only [natE, List.mem_append, List.mem_singleton] at h
  rcases h with h | h
  · exact natBitsF_pos n n t h
  · omega

theorem intE_pos (i : Int) : ∀ t ∈ intE i, t ≠ 0 := by
  intro t h
  cases i <;> simp only [intE, List.mem_cons] at h <;>
    rcases h with h | h
  · omega
  · exact natE_pos _ t h
  · omega
  · exact natE_pos _ t h

theorem ratE_pos (q : Rat) : ∀ t ∈ ratE q, t ≠ 0 := by
  intro t h
  simp only [ratE, List.mem_append] at h
  rcases h with h | h
  · exact intE_pos _ t h
  · exact natE_pos _ t h

theorem strE_pos (s : String) : ∀ t ∈ strE s, t ≠ 0 := by
  intro t h
  simp only [strE, List.mem_append, List.mem_flatten, List.mem_map] at h
  rcases h with h | ⟨w, ⟨c, _, rfl⟩, hw⟩
  · exact natE_pos _ t h
  · exact natE_pos _ t hw

theorem valueE_pos (v : Value) : ∀ t ∈ valueE v, t ≠ 0 := by
  refine valueE.induct
    (fun l => ∀ t ∈ valueE.seqE l, t ≠ 0)
    (fun v => ∀ t ∈ valueE v, t ≠ 0)
    (fun m => ∀ t ∈ valueE.mapE m, t ≠ 0)
    ?_ ?_ ?_ ?_ ?_ ?_ ?_ ?_ ?_ ?_ ?_ ?_ v
  · intro t h; simp [valueE] at h; omega
  · intro b t h
    cases b <;> simp [valueE] at h <;> omega
  · intro i t h
    simp only [valueE, List.mem_cons] at h
    rcases h with h | h
    · omega
    · exact intE_pos _ t h
  · intro q t h
    simp only [valueE, List.mem_cons] at h
    rcases h with h | h
    · omega
    · exact ratE_pos _ t h
  · intro s t h
    simp only [valueE, List.mem_cons] at h
    rcases h with h | h
    · omega
    · exact strE_pos _ t h
  · intro w t h
    simp only [valueE, List.mem_cons, List.mem_append] at h
    rcases h with (h | h) | h
    · omega
    · exact natE_pos _ t h
    · rw [List.mem_flatten] at h
      obtain ⟨lst, hl, ht⟩ := h
      rw [List.mem_map] at hl
      obtain ⟨c, _, rfl⟩ := hl
      exact ratE_pos c t ht
  · intro l ih t h
    simp only [valueE, List.mem_cons, List.mem_append] at h
    rcases h with (h | h) | h
    · omega
    · exact natE_pos _ t h
    · exact ih t h
  · intro m ih t h
    simp only [valueE, List.mem_cons, List.mem_append] at h
    rcases h with (h | h) | h
    · omega
    · exact natE_pos _ t h
    · exact ih t h
  · intro t h; simp [valueE.seqE] at h
  · intro x xs ihx ihs t h
    simp only [valueE.seqE, List.mem_append] at h
    rcases h with h | h
    · exact ihx t h
    · exact ihs t h
  · intro t h; simp [valueE.mapE] at h
  · intro s x xs ihx ihs t h
    simp only [valueE.mapE, List.mem_append] at h
    rcases h with (h | h) | h
    · exact strE_pos _ t h
    · exact ihx t h
    · exact ihs t h

theorem entriesE_pos (l : List (String × Entry)) : ∀ t ∈ entriesE l, t ≠ 0 := by
  induction l with
  | nil => intro t h; simp [entriesE] at h
  | cons p rest ih =>
      obtain ⟨k, e⟩ := p
      intro t h
      simp only [entriesE, entryE, List.mem_append] at h
      rcases h with (h | (h | h) | h) | h
      · exact strE_pos _ t h
      · exact valueE_pos _ t h
      · exact intE_pos _ t h
      · exact intE_pos _ t h
      · exact ih t h

/-- No token of an encoded document map is zero, so the encoded block is
delimited by the zero padding that follows it. -/
theorem docE_pos (l : List (String × Entry)) : ∀ t ∈ docE l, t ≠ 0 := by
  intro t h
  simp only [docE, List.mem_append] at h
  rcases h with h | h
  · exact natE_pos _ t h
  · exact entriesE_pos l t h

/-
Association-list and content-scan lemmas.
-/

theorem alookup_aupdate {α : Type} (l : List (String × α)) (k : String) (v : α) (k2 : String) :
    alookup (aupdate l k v) k2 = if k = k2 then some v else alookup l k2 := by
  induction l with
  | nil => simp [aupdate, alookup]
  | cons p xs ih =>
      obtain ⟨k3, v3⟩ := p
      by_cases h3 : k3 = k
      · subst h3
        rw [aupdate.eq_def]
        simp only [if_true, eq_self_iff_true]
        by_cases h4 : k3 = k2
        · subst h4
          simp [alookup]
        · simp [alookup, h4]
      · rw [aupdate.eq_def]
        simp only [if_neg h3]
        by_cases h4 : k3 = k2
        · subst h4
          have h5 : ¬ (k = k3) := fun hh => h3 hh.symm
          simp [alookup, h5]
        · simp [alookup, h4, ih]

theorem alookup_mem {α : Type} (l : List (String × α)) (k : String) (v : α) :
    alookup l k = some v → (k, v) ∈ l := by
  induction l with
  | nil => intro h; simp [alookup] at h
  | cons p xs ih =>
      intro h
      obtain ⟨k3, v3⟩ := p
      simp only [alookup] at h
      by_cases h3 : k3 = k
      · subst h3
        simp only [if_true, eq_self_iff_true] at h
        injection h with hv
        subst hv
        exact List.mem_cons_self _ _
      · rw [if_neg h3] at h
        exact List.mem_cons_of_mem _ (ih h)

theorem mem_aupdate {α : Type} (l : List (String × α)) (k : String) (v : α) (p : String × α) :
    p ∈ aupdate l k v → p ∈ l ∨ p = (k, v) := by
  induction l with
  | nil => intro h; simpa [aupdate] using h
  | cons q xs ih =>
      intro h
      obtain ⟨k3, v3⟩ := q
      by_cases h3 : k3 = k
      · subst h3
        rw [aupdate.eq_def] at h
        simp only [if_true, eq_self_iff_true, List.mem_cons] at h
        rcases h with h1 | h1
        · exact Or.inr h1
        · exact Or.inl (List.mem_cons_of_mem _ h1)
      · rw [aupdate.eq_def] at h
        simp only [if_neg h3, List.mem_cons] at h
        rcases h with h1 | h1
        · exact Or.inl (h1 ▸ List.mem_cons_self _ _)
        · rcases ih h1 with h2 | h2
          · exact Or.inl (List.mem_cons_of_mem _ h2)
          · exact Or.inr h2

theorem docE_length_pos (l : List (String × Entry)) : 1 ≤ (docE l).length := by
  have := natE_length_pos l.length
  simp only [docE, List.length_append]
  omega

theorem findContentSize_front (enc : List Nat) (p : Nat) (h : ∀ t ∈ enc, t ≠ 0) :
    findContentSize (enc ++ List.replicate p 0) = enc.length := by
  induction enc with
  | nil =>
      cases p with
      | zero => rfl
      | succ p => simp [findContentSize, List.replicate_succ, List.findIdx_cons]
  | cons a l ih =>
      have ha : a ≠ 0 := h a (List.mem_cons_self _ _)
      have ih2 := ih (fun t ht => h t (List.mem_cons_of_mem _ ht))
      simp only [findContentSize, List.cons_append, List.findIdx_cons] at ih2 ⊢
      have : (a == 0) = false := by simpa using ha
      rw [this]
      simp only [cond_false, List.length_cons]
      omega

theorem findContentSize_zeros (n : Nat) : findContentSize (List.replicate n 0) = 0 := by
  cases n with
  | zero => rfl
  | succ n => simp [findContentSize, List.replicate_succ, List.findIdx_cons]

/-
Lemmas about the store operations feeding the round-trip claim.
-/

theorem imUpdate_empty (sq : Rat → Rat) (k : String) (v : Value) :
    IndexManager.Update sq NewIndexManager k v = some NewIndexManager := by
  cases v <;> rfl

theorem loadIndexes_empty (sq : Rat → Rat) (now : Int) (l : List (String × Entry)) :
    loadIndexes sq now NewIndexManager l = some NewIndexManager := by
  induction l with
  | nil => rfl
  | cons p rest ih =>
      obtain ⟨k, e⟩ := p
      rw [loadIndexes]
      by_cases he : e.expiredAt now = true
      · simp [he, ih]
      · simp only [Bool.not_eq_true] at he
        simp [he, imUpdate_empty, ih]

theorem applySets_ttl0 (sq : Rat → Rat) : ∀ (ops : List (String × Value × Int)) (st0 st : Store),
    applySets sq ops st0 = some st → (∀ p ∈ st0.data, p.2.ttl = 0) →
    ∀ p ∈ st.data, p.2.ttl = 0 := by
  intro ops
  induction ops with
  | nil =>
      intro st0 st h h0
      simp only [applySets] at h
      cases h
      exact h0
  | cons op rest ih =>
      intro st0 st h h0
      obtain ⟨k, v, t⟩ := op
      simp only [applySets, Store.Set, Option.bind_eq_bind] at h
      cases him : (st0.indexes.Update sq k v) with
      | none => rw [him] at h; simp at h
      | some im2 =>
          rw [him] at h
          simp only [Option.some_bind] at h
          refine ih _ st h ?_
          intro p hp
          rcases mem_aupdate st0.data k ⟨v, t, 0⟩ p hp with h2 | h2
          · exact h0 p h2
          · rw [h2]

theorem applySets_dirty (sq : Rat → Rat) : ∀ (ops : List (String × Value × Int)) (st0 st : Store),
    applySets sq ops st0 = some st → st0.dirty = true → st.dirty = true := by
  intro ops
  induction ops with
  | nil =>
      intro st0 st h h0
      simp only [applySets] at h
      cases h
      exact h0
  | cons op rest ih =>
      intro st0 st h _
      obtain ⟨k, v, t⟩ := op
      simp only [applySets, Store.Set, Option.bind_eq_bind] at h
      cases him : (st0.indexes.Update sq k v) with
      | none => rw [him] at h; simp at h
      | some im2 =>
          rw [him] at h
          simp only [Option.some_bind] at h
          exact ih _ st h rfl

theorem applySets_dirty_false (sq : Rat → Rat) (n : Nat) (ops : List (String × Value × Int))
    (st : Store) (h : applySets sq ops (emptyStore n) = some st) (hd : st.dirty = false) :
    st = emptyStore n := by
  cases ops with
  | nil =>
      simp only [applySets] at h
      cases h
      rfl
  | cons op rest =>
      obtain ⟨k, v, t⟩ := op
      simp only [applySets, Store.Set, Option.bind_eq_bind] at h
      cases him : ((emptyStore n).indexes.Update sq k v) with
      | none => rw [him] at h; simp at h
      | some im2 =>
          rw [him] at h
          simp only [Option.some_bind] at h
          have := applySets_dirty sq rest _ st h rfl
          rw [this] at hd
          cases hd

/-- Whenever sync needs to grow the region, its re-entry through resize repeats
the same dirty state forever: no amount of fuel lets it return. -/
theorem sync_grow_none (now : Int) (st : Store) (hd : st.dirty = true)
    (hlen : st.mm.length < (docE (st.data.filter (fun p => syncKeep now p.2))).length) :
    ∀ fuel, Store.syncF now fuel st = none := by
  intro fuel
  induction fuel with
  | zero => rfl
  | succ f ih =>
      rw [Store.syncF]
      rw [hd]
      simp only [Bool.not_true, Bool.false_eq_true, if_false]
      rw [if_pos hlen]
      cases growTarget st.mm.length (docE (st.data.filter (fun p => syncKeep now p.2))).length with
      | none => rfl
      | some newSize => rw [ih]

/-- The two ways a sync call can return: nothing to do, or an in-place write of
the encoded clean map (the growth path never returns; see sync_grow_none). -/
theorem syncF_some (now : Int) (f : Nat) (st st1 : Store)
    (h : Store.syncF now (f + 1) st = some st1) :
    (st.dirty = false ∧ st1 = st) ∨
    (st.dirty = true ∧
      (docE (st.data.filter (fun p => syncKeep now p.2))).length ≤ st.mm.length ∧
      st1 = writeEnc st (docE (st.data.filter (fun p => syncKeep now p.2)))) := by
  cases hd : st.dirty with
  | false =>
      rw [Store.syncF, hd] at h
      simp only [Bool.not_false, if_true] at h
      cases h
      exact Or.inl ⟨rfl, rfl⟩
  | true =>
      rw [Store.syncF, hd] at h
      simp only [Bool.not_true, Bool.false_eq_true, if_false] at h
      by_cases hlen : st.mm.length < (docE (st.data.filter (fun p => syncKeep now p.2))).length
      · rw [if_pos hlen] at h
        cases hg : growTarget st.mm.length
            (docE (st.data.filter (fun p => syncKeep now p.2))).length with
        | none => rw [hg] at h; cases h
        | some newSize =>
            rw [hg, sync_grow_none now st hd hlen f] at h
            cases h
      · rw [if_neg hlen] at h
        cases h
        exact Or.inr ⟨rfl, by omega, rfl⟩

/-- C1: persistence round-trip.  For every sequence of Set calls from a fresh
store, if sync returns, then a store constructed over the resulting region
holds exactly the same (key, value) pairs for every entry not expired at
reopen time (every entry written by Set has TTL 0, so none is expired). -/
theorem claim_C1 (sq : Rat → Rat) (n : Nat) (ops : List (String × Value × Int))
    (now treopen : Int) (fuel : Nat) (st st1 st2 : Store)
    (hops : applySets sq ops (emptyStore n) = some st)
    (hsync : Store.syncF now fuel st = some st1)
    (hload : loadStore sq st1.mm treopen = some st2) :
    ∀ k e, alookup st2.data k = some e ↔
      (alookup st.data k = some e ∧ e.expiredAt treopen = false) := by
  have httl : ∀ p ∈ st.data, p.2.ttl = 0 :=
    applySets_ttl0 sq ops (emptyStore n) st hops (by simp [emptyStore])
  have hclean : st.data.filter (fun p => syncKeep now p.2) = st.data := by
    rw [List.filter_eq_self]
    intro p hp
    simp [syncKeep, httl p hp]
  have hexp : ∀ p ∈ st.data, p.2.expiredAt treopen = false := by
    intro p hp
    simp [Entry.expiredAt, httl p hp]
  cases fuel with
  | zero => cases hsync
  | succ f =>
      rcases syncF_some now f st st1 hsync with ⟨hd, heq⟩ | ⟨hd, hle, heq⟩
      · rw [heq] at hload
        have hemp := applySets_dirty_false sq n ops st hops hd
        subst hemp
        simp only [emptyStore] at hload
        rw [loadStore] at hload
        rw [findContentSize_zeros n] at hload
        rw [if_pos rfl] at hload
        cases hload
        intro k e
        simp [alookup, emptyStore]
      · rw [heq] at hload
        rw [hclean] at hle
        have hmm2 : (writeEnc st (docE (List.filter (fun p => syncKeep now p.2) st.data))).mm
            = docE st.data ++ List.replicate (st.mm.length - (docE st.data).length) 0 := by
          simp [writeEnc, hclean]
        rw [hmm2, loadStore] at hload
        rw [findContentSize_front (docE st.data) _ (docE_pos st.data)] at hload
        have hpos : ¬ (docE st.data).length = 0 := by
          have := docE_length_pos st.data
          omega
        rw [if_neg hpos] at hload
        rw [List.take_left, decodeD_docE] at hload
        simp only [loadIndexes_empty, Option.bind_eq_bind, Option.some_bind] at hload
        cases hload
        intro k e
        constructor
        · intro h2
          exact ⟨h2, hexp (k, e) (alookup_mem _ _ _ h2)⟩
        · intro h2
          exact h2.1

/-
Claims C2, C3, C4, C5, C8, C9.
-/

/-- C2: the claim says that when the encoded clean map exceeds the region
length, sync grows the region by doubling, writes, and returns.  In the code,
growFile's resize re-enters sync with the store state unchanged, so sync calls
itself forever (and the re-entered resize re-acquires the store's non-reentrant
lock): for every dirty store needing growth, sync never returns, at any
recursion depth. -/
theorem claim_C2_sync_diverges (now : Int) (st : Store) (fuel : Nat)
    (hd : st.dirty = true)
    (hlen : st.mm.length < (docE (st.data.filter (fun p => syncKeep now p.2))).length) :
    Store.syncF now fuel st = none :=
  sync_grow_none now st hd hlen fuel

theorem claim_C2_sync_diverges_witness :
    ∃ st : Store, (emptyStore 1).Set id "k" (.vstr "v") 0 = some st ∧
      st.dirty = true ∧
      st.mm.length < (docE (st.data.filter (fun p => syncKeep 7 p.2))).length ∧
      Store.syncF 7 5 st = none := by
  refine ⟨((emptyStore 1).Set id "k" (.vstr "v") 0).get (by decide), ?_, ?_, ?_, ?_⟩
  · exact (Option.some_get _).symm
  · decide
  · decide
  · exact claim_C2_sync_diverges 7 _ 5 (by decide) (by decide)

/-- C3: the claim says IndexManager.Remove (as invoked by Delete) completes
without panicking and removes the key's contributions from ordered indexes.
In the code, Remove probes every btree with an item whose value is nil;
comparing any stored string-, int- or float-valued item against that probe
type-asserts nil and panics.  Concretely: create a btree index on tag, store
one document with a string tag, delete it - the manager Remove (and hence
Store.Delete) dies in indexItem.Less instead of completing. -/
theorem claim_C3_remove_panics :
    ∃ st1 st2 : Store,
      (emptyStore 8).CreateIndex "tag" "btree" = .ok st1 ∧
      st1.Set id "k1" (.vmap [("tag", .vstr "red")]) 5 = some st2 ∧
      st2.indexes.trees = [("tag", [⟨"k1", .vstr "red"⟩])] ∧
      st2.indexes.Remove "k1" = none ∧
      st2.Delete "k1" = none := by
  refine ⟨{ emptyStore 8 with indexes := ⟨[("tag", [])], [], []⟩ }, ?_, rfl, ?_, ?_, ?_, ?_⟩
  · exact ({ emptyStore 8 with indexes := ⟨[("tag", [])], [], []⟩ }.Set id "k1"
      (.vmap [("tag", .vstr "red")]) 5).get (by decide)
  · exact (Option.some_get _).symm
  · decide
  · decide
  · decide

/-- C4 counterexample: the claim quantifies over every positive duration and
every positive advance, but expiry is checked at whole Unix seconds.  Set with
TTL of one second at time 0, advance the clock by one and a half seconds
(Unix time floor(0 + 1 + 1/2) = 1): the expiry test 1 > 0 + 1 fails, and Get
returns the entry instead of absent. -/
theorem claim_C4_counterexample :
    ∃ st1 : Store,
      (emptyStore 4).SetWithTTL id "k" (.vstr "v") 0 1 = some st1 ∧
      Rat.floor ((0 : Rat) + 1 + 1 / 2) = 1 ∧
      (st1.Get "k" 1).1 = some ⟨.vstr "v", 0, 1⟩ := by
  refine ⟨((emptyStore 4).SetWithTTL id "k" (.vstr "v") 0 1).get (by decide), ?_, by decide, ?_⟩
  · exact (Option.some_get _).symm
  · decide

/-- C4 amended: after SetWithTTL the stored TTL is the truncation of the
duration to whole seconds; when that truncation is positive and the Unix clock
at the Get is strictly past timestamp + TTL, Get returns absent. -/
theorem claim_C4_amended (sq : Rat → Rat) (st st1 : Store) (k : String) (v : Value)
    (t0 : Int) (dur : Rat) (t1 : Int)
    (hset : st.SetWithTTL sq k v t0 dur = some st1)
    (hpos : 0 < Rat.floor dur) (hafter : t0 + Rat.floor dur < t1) :
    (st1.Get k t1).1 = none := by
  rw [Store.SetWithTTL] at hset
  cases him : st.indexes.Update sq k v with
  | none => rw [him] at hset; cases hset
  | some im2 =>
      rw [him] at hset
      simp only [Option.bind_eq_bind, Option.some_bind] at hset
      cases hset
      have hx : Entry.expiredAt ⟨v, t0, Rat.floor dur⟩ t1 = true := by
        simp only [Entry.expiredAt, Bool.and_eq_true, decide_eq_true_eq]
        exact ⟨hpos, hafter⟩
      rw [Store.Get]
      simp [alookup_aupdate, hx]

theorem claim_C4_amended_witness :
    ((((emptyStore 4).SetWithTTL id "k" (.vstr "v") 0 2).get (by decide)).Get "k" 3).1 = none :=
  claim_C4_amended id (emptyStore 4) _ "k" (.vstr "v") 0 2 3 (Option.some_get _).symm
    (by decide) (by decide)

/-- C5: the claim says a Set whose vector field has the wrong dimension
returns the dimension-mismatch error.  The vector index's Update does fail
with that error and leaves its state intact, but IndexManager.Update discards
the returned error, so Set succeeds: no error reaches the caller. -/
theorem claim_C5_error_dropped :
    ∃ st1 st2 : Store,
      (emptyStore 8).CreateIndex "embedding" "vector" = .ok st1 ∧
      VectorIndex.Update id (NewVectorIndex 384) "k" [1] = .error "vector dimension mismatch" ∧
      st1.Set id "k" (.vmap [("embedding", .vvec [1])]) 5 = some st2 ∧
      st2.indexes.vectors = st1.indexes.vectors := by
  refine ⟨{ emptyStore 8 with indexes := ⟨[], [("embedding", NewVectorIndex 384)], []⟩ },
    ?_, rfl, rfl, ?_, ?_⟩
  · exact ({ emptyStore 8 with indexes := ⟨[], [("embedding", NewVectorIndex 384)], []⟩ }.Set
      id "k" (.vmap [("embedding", .vvec [1])]) 5).get (by decide)
  · exact (Option.some_get _).symm
  · decide

/-- C8 counterexample: the public index-type token for ordered indexes is
btree, not ordered; CreateIndex with type ordered is rejected. -/
theorem claim_C8_counterexample :
    NewIndexManager.AddIndex "f" "ordered" = .error "unknown index type: ordered" := rfl

/-- C8 amended: AddIndex succeeds for exactly the types text, vector and
btree - creating the index when absent and leaving the manager unchanged when
present - and returns the unknown-index-type error for every other string,
including the spec's ordered. -/
theorem claim_C8_amended (im : IndexManager) (field ty : String) :
    ((ty = "text" ∨ ty = "vector" ∨ ty = "btree") → ∃ im2, im.AddIndex field ty = .ok im2) ∧
    (ty = "text" → (alookup im.text field).isSome → im.AddIndex field ty = .ok im) ∧
    (ty = "vector" → (alookup im.vectors field).isSome → im.AddIndex field ty = .ok im) ∧
    (ty = "btree" → (alookup im.trees field).isSome → im.AddIndex field ty = .ok im) ∧
    (ty ≠ "text" → ty ≠ "vector" → ty ≠ "btree" →
      im.AddIndex field ty = .error ("unknown index type: " ++ ty)) := by
  refine ⟨?_, ?_, ?_, ?_, ?_⟩
  · rintro (rfl | rfl | rfl)
    · by_cases h2 : (alookup im.text field).isSome
      · exact ⟨im, by simp [IndexManager.AddIndex, h2]⟩
      · exact ⟨{ im with text := aupdate im.text field NewTrigramIndex },
          by simp [IndexManager.AddIndex, h2]⟩
    · by_cases h2 : (alookup im.vectors field).isSome
      · exact ⟨im, by simp [IndexManager.AddIndex, h2]⟩
      · exact ⟨{ im with vectors := aupdate im.vectors field (NewVectorIndex 384) },
          by simp [IndexManager.AddIndex, h2]⟩
    · by_cases h2 : (alookup im.trees field).isSome
      · exact ⟨im, by simp [IndexManager.AddIndex, h2]⟩
      · exact ⟨{ im with trees := aupdate im.trees field [] },
          by simp [IndexManager.AddIndex, h2]⟩
  · rintro rfl h2
    simp [IndexManager.AddIndex, h2]
  · rintro rfl h2
    simp [IndexManager.AddIndex, h2]
  · rintro rfl h2
    simp [IndexManager.AddIndex, h2]
  · intro h1 h2 h3
    simp [IndexManager.AddIndex, h1, h2, h3]

theorem claim_C8_amended_witness :
    (∃ im2, NewIndexManager.AddIndex "f" "text" = .ok im2) ∧
    NewIndexManager.AddIndex "f" "zzz" = .error "unknown index type: zzz" :=
  ⟨(claim_C8_amended NewIndexManager "f" "text").1 (Or.inl rfl),
   (claim_C8_amended NewIndexManager "f" "zzz").2.2.2.2 (by decide) (by decide) (by decide)⟩

/-- C9: the claim says GetStats is a pure observation whose per-index entry
counts equal the current index sizes.  The code adds the sizes onto the
previously reported values and stores the sums back: with one text index
holding one document, the first call reports 1, the second reports 2, and the
two snapshots differ. -/
theorem claim_C9_stats_accumulate :
    ∃ st1 st2 : Store,
      (emptyStore 8).CreateIndex "title" "text" = .ok st1 ∧
      st1.Set id "a" (.vmap [("title", .vstr "hi")]) 5 = some st2 ∧
      st2.indexes.text = [("title", ⟨[("hi", ["a"])], [("a", "hi")]⟩)] ∧
      (st2.GetStats.1.textIndexes.entryCount = 1 ∧
       ((st2.GetStats.2).GetStats).1.textIndexes.entryCount = 2 ∧
       st2.GetStats.1 ≠ ((st2.GetStats.2).GetStats).1) := by
  refine ⟨{ emptyStore 8 with indexes := ⟨[], [], [("title", NewTrigramIndex)]⟩ }, ?_, rfl, ?_, ?_⟩
  · exact ({ emptyStore 8 with indexes := ⟨[], [], [("title", NewTrigramIndex)]⟩ }.Set
      id "a" (.vmap [("title", .vstr "hi")]) 5).get (by decide)
  · exact (Option.some_get _).symm
  · decide

/-
Claim C6: filters and the combine step.
-/

theorem combineResults_filter_mem (st : Store) (text : List TextSearchResult)
    (vector : List VectorSearchResult) (filters : List String) (hne : filters ≠ [])
    (r : SearchResult) (hr : r ∈ st.combineResults text vector filters) : r.key ∈ filters := by
  simp only [Store.combineResults] at hr
  rw [List.mem_filterMap] at hr
  obtain ⟨a, ha, hfa⟩ := hr
  have hkey : a.key = r.key := by
    cases hl : alookup st.data a.key with
    | none => rw [hl] at hfa; cases hfa
    | some e =>
        rw [hl] at hfa
        injection hfa with hfa
        rw [← hfa]
  have hie : filters.isEmpty = false := by
    cases filters with
    | nil => exact absurd rfl hne
    | cons x xs => rfl
  rw [hie] at ha
  simp only [Bool.false_eq_true, if_false] at ha
  rw [List.mem_filter] at ha
  have := ha.2
  simp only [decide_eq_true_eq] at this
  exact hkey ▸ this

/-- C6 counterexample: with a text index on title, a btree index on tag and
one document tagged blue, a search for text hello filtered on tag red has an
empty filter key set, yet returns the text hit: the empty set imposes no
restriction, contradicting the claim that the result must then be empty. -/
theorem claim_C6_counterexample :
    ∃ st1 st2 st3 : Store,
      (emptyStore 32).CreateIndex "title" "text" = .ok st1 ∧
      st1.CreateIndex "tag" "btree" = .ok st2 ∧
      st2.Set id "a" (.vmap [("title", .vstr "hello"), ("tag", .vstr "blue")]) 5 = some st3 ∧
      st3.indexes.Search [("tag", .vstr "red")] = some [] ∧
      st3.Search id ⟨"hello", [], [("tag", .vstr "red")], 0, 0⟩ =
        some (.ok [⟨"a", .vmap [("title", .vstr "hello"), ("tag", .vstr "blue")], 1, 0, 0⟩]) := by
  refine ⟨{ emptyStore 32 with indexes := ⟨[], [], [("title", NewTrigramIndex)]⟩ },
    { emptyStore 32 with indexes := ⟨[("tag", [])], [], [("title", NewTrigramIndex)]⟩ },
    ?_, rfl, rfl, ?_, ?_, ?_⟩
  · exact ({ emptyStore 32 with indexes := ⟨[("tag", [])], [], [("title", NewTrigramIndex)]⟩ }.Set
      id "a" (.vmap [("title", .vstr "hello"), ("tag", .vstr "blue")]) 5).get (by decide)
  · exact (Option.some_get _).symm
  · decide
  · rfl

/-- C6 amended: whenever the query's filters are nonempty and the filter
search produces a nonempty key set, every returned result's key lies in that
set.  (When the key set is empty the code applies no restriction at all; see
the counterexample.) -/
theorem claim_C6_amended (sq : Rat → Rat) (st : Store) (q : SearchQuery)
    (L : List SearchResult) (ks : List String)
    (hfil : q.filters ≠ []) (hks : st.indexes.Search q.filters = some ks) (hksne : ks ≠ [])
    (hsearch : st.Search sq q = some (.ok L)) :
    ∀ r ∈ L, r.key ∈ ks := by
  rw [Store.Search] at hsearch
  cases hv : (if q.vector.isEmpty then Except.ok []
      else vectorStage sq st.indexes.vectors q.vector q.maxResults :
      Except String (List VectorSearchResult)) with
  | error e => rw [hv] at hsearch; cases hsearch
  | ok vres =>
      rw [hv] at hsearch
      have hie : q.filters.isEmpty = false := by
        cases hq : q.filters with
        | nil => exact absurd hq hfil
        | cons x xs => rfl
      rw [hie] at hsearch
      simp only [Bool.false_eq_true, if_false] at hsearch
      rw [hks] at hsearch
      injection hsearch with hsearch
      injection hsearch with hsearch
      intro r hr
      rw [← hsearch] at hr
      have hr2 : r ∈ (st.combineResults (if q.text = "" then []
          else (st.indexes.text.map (fun p => p.2.FuzzySearch q.text q.minScore q.maxResults)).flatten)
          vres ks).insertionSort bySearchScoreDesc := by
        by_cases hc : 0 < q.maxResults ∧
            ((st.combineResults (if q.text = "" then []
              else (st.indexes.text.map
                (fun p => p.2.FuzzySearch q.text q.minScore q.maxResults)).flatten)
              vres ks).insertionSort bySearchScoreDesc).length > q.maxResults
        · rw [if_pos hc] at hr
          exact List.mem_of_mem_take hr
        · rw [if_neg hc] at hr
          exact hr
      rw [List.mem_insertionSort] at hr2
      exact combineResults_filter_mem st _ vres ks hksne r hr2

theorem claim_C6_amended_witness :
    (⟨"a", .vmap [("title", .vstr "hello"), ("tag", .vstr "blue")], 1, 0, 0⟩ :
        SearchResult).key ∈ (["a"] : List String) :=
  claim_C6_amended id
    { emptyStore 32 with
      data := [("a", ⟨.vmap [("title", .vstr "hello"), ("tag", .vstr "blue")], 5, 0⟩)],
      dirty := true,
      indexes := ⟨[("tag", [⟨"a", .vstr "blue"⟩])], [],
        [("title", ⟨[("hel", ["a"]), ("ell", ["a"]), ("llo", ["a"])], [("a", "hello")]⟩)]⟩ }
    ⟨"hello", [], [("tag", .vstr "blue")], 0, 0⟩ _ ["a"]
    (by decide) (by decide) (by decide) rfl
    ⟨"a", .vmap [("title", .vstr "hello"), ("tag", .vstr "blue")], 1, 0, 0⟩ (by decide)

/-
Claim C7: trigram search and fuzzy search.
-/

theorem map_key_comp (cands : List String) (f : String → Rat) (g : String → String) :
    List.map ((fun (r : TextSearchResult) => r.key) ∘
      (fun k => (⟨k, f k, g k⟩ : TextSearchResult))) cands = cands := by
  induction cands with
  | nil => rfl
  | cons x xs ih => simp only [List.map_cons, Function.comp_apply, ih]

/-- C7: on every index state and query, the untruncated Search returns exactly
the keys appearing in the posting of at least one query trigram, each exactly
once, scored by the number of query trigrams (counted with multiplicity)
whose posting holds the key over the total number of query trigrams, in
descending score order; Search with a positive limit is its truncation, and
FuzzySearch is the untruncated Search with scores below minScore dropped and
then truncated. -/
theorem claim_C7 (ti : TrigramIndex) (q : String) (ms : Rat) (m : Nat) :
    (((ti.Search q 0).map (fun r => r.key)).Nodup ∧
      ∀ k, k ∈ (ti.Search q 0).map (fun r => r.key) ↔
        ∃ g ∈ generateTrigrams q, k ∈ ti.posting g) ∧
    (∀ r ∈ ti.Search q 0,
      r.score = (((generateTrigrams q).countP (fun g => decide (r.key ∈ ti.posting g)) : Nat) : Rat) /
          (((generateTrigrams q).length : Nat) : Rat) ∧
      r.text = (alookup ti.docs r.key).getD "") ∧
    (ti.Search q 0).Sorted byTextScoreDesc ∧
    ti.Search q m = (if 0 < m ∧ m < (ti.Search q 0).length
      then (ti.Search q 0).take m else ti.Search q 0) ∧
    ti.FuzzySearch q ms m =
      (if 0 < m ∧ m < ((ti.Search q 0).filter (fun r => ms ≤ r.score)).length
       then ((ti.Search q 0).filter (fun r => ms ≤ r.score)).take m
       else (ti.Search q 0).filter (fun r => ms ≤ r.score)) := by
  have hzero : ti.Search q 0 =
      ((((generateTrigrams q).flatMap (fun g => ti.posting g)).dedup).map (fun k =>
        (⟨k, (((generateTrigrams q).countP (fun g => decide (k ∈ ti.posting g)) : Nat) : Rat) /
          (((generateTrigrams q).length : Nat) : Rat),
          (alookup ti.docs k).getD ""⟩ : TextSearchResult))).insertionSort byTextScoreDesc := by
    simp [TrigramIndex.Search]
  have hperm : List.Perm (ti.Search q 0)
      ((((generateTrigrams q).flatMap (fun g => ti.posting g)).dedup).map (fun k =>
        (⟨k, (((generateTrigrams q).countP (fun g => decide (k ∈ ti.posting g)) : Nat) : Rat) /
          (((generateTrigrams q).length : Nat) : Rat),
          (alookup ti.docs k).getD ""⟩ : TextSearchResult))) := by
    rw [hzero]
    exact List.perm_insertionSort _ _
  have hkeys : List.Perm ((ti.Search q 0).map (fun r => r.key))
      (((generateTrigrams q).flatMap (fun g => ti.posting g)).dedup) := by
    have h2 := hperm.map (fun r => r.key)
    rw [List.map_map, map_key_comp] at h2
    exact h2
  refine ⟨⟨?_, ?_⟩, ?_, ?_, ?_, ?_⟩
  · exact hkeys.nodup_iff.mpr (List.nodup_dedup _)
  · intro k
    rw [hkeys.mem_iff, List.mem_dedup, List.mem_flatMap]
  · intro r hr
    rw [hzero, List.mem_insertionSort, List.mem_map] at hr
    obtain ⟨k, _, rfl⟩ := hr
    exact ⟨rfl, rfl⟩
  · rw [hzero]
    exact List.sorted_insertionSort _ _
  · rw [hzero]
    simp only [TrigramIndex.Search]
  · rfl

theorem claim_C7_witness :
    ((TrigramIndex.Search ⟨[("hel", ["a"]), ("ell", ["a"]), ("llo", ["a"])], [("a", "hello")]⟩
        "hello" 0).map (fun r => r.key)).Nodup ∧
    (TrigramIndex.Search ⟨[("hel", ["a"]), ("ell", ["a"]), ("llo", ["a"])], [("a", "hello")]⟩
        "hello" 0).Sorted byTextScoreDesc :=
  ⟨(claim_C7 ⟨[("hel", ["a"]), ("ell", ["a"]), ("llo", ["a"])], [("a", "hello")]⟩
      "hello" 0 0).1.1,
   (claim_C7 ⟨[("hel", ["a"]), ("ell", ["a"]), ("llo", ["a"])], [("a", "hello")]⟩
      "hello" 0 0).2.2.1⟩

/-
Claim C10: vector search with k = 0 and Store.Search with MaxResults = 0.
-/

theorem vectorStage_ok_empty (sq : Rat → Rat) (vecs : List (String × VectorIndex))
    (query : List Rat) (hdim : ∀ p ∈ vecs, query.length = p.2.dim) :
    vectorStage sq vecs query 0 = .ok [] := by
  induction vecs with
  | nil => rfl
  | cons p rest ih =>
      obtain ⟨f, vi⟩ := p
      have h1 : query.length = vi.dim := hdim (f, vi) (List.mem_cons_self _ _)
      have h2 := ih (fun x hx => hdim x (List.mem_cons_of_mem _ hx))
      rw [vectorStage, VectorIndex.Search]
      simp [h1, h2]
      rfl

/-- C10: a vector search with k = 0 returns no results whenever the query has
the index's dimension, and consequently a Store.Search with MaxResults = 0
behaves exactly as if the query had no vector at all - the vector stage
contributes nothing, while text results and the final list are untruncated. -/
theorem claim_C10 :
    (∀ (sq : Rat → Rat) (vi : VectorIndex) (query : List Rat),
        query.length = vi.dim → VectorIndex.Search sq vi query 0 = .ok []) ∧
    (∀ (sq : Rat → Rat) (st : Store) (q : SearchQuery),
        q.maxResults = 0 →
        (∀ p ∈ st.indexes.vectors, q.vector.length = p.2.dim) →
        st.Search sq q = st.Search sq { q with vector := [] }) := by
  constructor
  · intro sq vi query h
    rw [VectorIndex.Search]
    simp [h]
  · intro sq st q hmax hdim
    have hL : (if q.vector.isEmpty then Except.ok ([] : List VectorSearchResult)
        else vectorStage sq st.indexes.vectors q.vector q.maxResults) = .ok [] := by
      by_cases hv : q.vector.isEmpty
      · simp [hv]
      · rw [if_neg hv, hmax]
        exact vectorStage_ok_empty sq _ _ hdim
    have hR : (if ({ q with vector := [] } : SearchQuery).vector.isEmpty
        then Except.ok ([] : List VectorSearchResult)
        else vectorStage sq st.indexes.vectors ({ q with vector := [] } : SearchQuery).vector
          ({ q with vector := [] } : SearchQuery).maxResults) = .ok [] := by
      simp
    rw [Store.Search, Store.Search, hL, hR]

theorem claim_C10_witness :
    VectorIndex.Search id ⟨[("a", [1])], 1⟩ [1] 0 = .ok [] ∧
    Store.Search id { emptyStore 4 with indexes := ⟨[], [("e", ⟨[("a", [1])], 1⟩)], []⟩ }
        ⟨"", [1], [], 0, 0⟩ =
      Store.Search id { emptyStore 4 with indexes := ⟨[], [("e", ⟨[("a", [1])], 1⟩)], []⟩ }
        ⟨"", [], [], 0, 0⟩ :=
  ⟨claim_C10.1 id ⟨[("a", [1])], 1⟩ [1] rfl,
   claim_C10.2 id { emptyStore 4 with indexes := ⟨[], [("e", ⟨[("a", [1])], 1⟩)], []⟩ }
     ⟨"", [1], [], 0, 0⟩ rfl (by decide)⟩

/-
Claim C1 witness.
-/

set_option maxRecDepth 4000 in
theorem claim_C1_witness :
    ∃ st3 : Store,
      loadStore id c1st2.mm 11 = some st3 ∧
      (alookup st3.data "a" = some ⟨.vstr "hi", 3, 0⟩ ↔
        (alookup c1st1.data "a" = some ⟨.vstr "hi", 3, 0⟩ ∧
          Entry.expiredAt ⟨.vstr "hi", 3, 0⟩ 11 = false)) := by
  have hld : (loadStore id c1st2.mm 11).isSome = true := by decide
  refine ⟨Option.get _ hld, (Option.some_get hld).symm, ?_⟩
  exact claim_C1 id 100 [("a", .vstr "hi", 3)] 10 11 1 c1st1 c1st2
    (Option.get _ hld) rfl rfl (Option.some_get hld).symm "a" ⟨.vstr "hi", 3, 0⟩
